import Mathlib

/-!
Verification of the `format` C++ string-interpolation library
(`src/format.hpp`).  The parser, the format engine and the per-type
formatters (integer, string, sequence, pair, container) are embedded as
executable Lean functions that mirror the source, and the behavioural
claims about them are proved below the definitions.
-/

namespace CFmt

/-- Error kinds raised by the library (the C++ code throws
`std::runtime_error`; the distinct throw sites are distinguished here).
`outOfFuel` is an artefact of the fuelled embedding of the recursive
descent parser and is proved unreachable for the fuel used by `fmt`. -/
inductive Err where
  | outOfFuel
  | unterminatedField
  | fieldNotFound (name : String)
  | unsupportedType
  | invalidFormatSpec
  deriving DecidableEq, Repr

/-- `struct Field { std::string name; std::string options;
std::vector<Format> subformats; }` with `Format = std::vector<Field>`. -/
inductive Field where
  | mk (name : String) (options : String) (subformats : List (List Field))

/-- `typedef std::vector<Field> Format`. -/
abbrev Format := List Field

def Field.name : Field → String
  | .mk n _ _ => n

def Field.options : Field → String
  | .mk _ o _ => o

def Field.subformats : Field → List (List Field)
  | .mk _ _ s => s

/-- The three identical scanning loops of `parseFormat` (static text,
name, options): consume characters until an unescaped stop character,
where `~` followed by any character yields that character and consumes
the pair; a trailing `~` with no successor is taken literally.  Returns
the consumed run and the remaining input. -/
def scanRun (stops : List Char) : List Char → List Char × List Char
  | [] => ([], [])
  | [c] => if c ∈ stops then ([], [c]) else ([c], [])
  | c :: d :: rest =>
    if c = '~' then
      (d :: (scanRun stops rest).1, (scanRun stops rest).2)
    else if c ∈ stops then
      ([], c :: d :: rest)
    else
      (c :: (scanRun stops (d :: rest)).1, (scanRun stops (d :: rest)).2)

/-- `result.back().options += sta` -/
def addToLast : Format → String → Format
  | [], _ => []
  | [Field.mk n o s], t => [Field.mk n (o ++ t) s]
  | f :: g :: r, t => f :: addToLast (g :: r) t

/-- The static-run push of `parseFormat`: if the previous field pushed
was not a static run, push a fresh static field, then append the text to
the last field's options. -/
def pushStatic (acc : Format) (lastStatic : Bool) (sta : List Char) : Format :=
  if lastStatic then addToLast acc (String.mk sta)
  else acc ++ [Field.mk ("") (String.mk sta) ([])]

mutual

/-- The outer loop of `Format parseFormat(const char *&p)`: while the
input is non-empty and does not start with `}`, consume a static run
(pushing/merging it) and then, if a `{` follows, parse one field and
continue.  Returns the accumulated `Format` and the unconsumed rest. -/
def parseFormat : Nat → Format → Bool → List Char → Except Err (Format × List Char)
  | 0, _, _, _ => .error .outOfFuel
  | fuel+1, acc, lastStatic, p =>
    match p with
    | [] => .ok (acc, [])
    | c :: p0 =>
      if c = '}' then .ok (acc, c :: p0)
      else
        let sc := scanRun ['\x7b', '\x7d'] (c :: p0)
        let acc1 := if sc.1.isEmpty then acc else pushStatic acc lastStatic sc.1
        match sc.2 with
        | c1 :: p2 => if c1 = '\x7b' then parseField fuel acc1 p2 else .ok (acc1, c1 :: p2)
        | [] => .ok (acc1, [])

/-- The body of the `if (*p == '{')` branch of `parseFormat`: scan the
name, optionally `:` options and `:`-separated subformats, require the
closing `}`, push the field and continue the outer loop. -/
def parseField : Nat → Format → List Char → Except Err (Format × List Char)
  | 0, _, _ => .error .outOfFuel
  | fuel+1, acc, p =>
    let ns := scanRun [':', '\x7d'] p
    match ns.2 with
    | c :: p3 =>
      if c = ':' then
        let os := scanRun [':', '\x7d'] p3
        match parseSubs fuel [] os.2 with
        | .error e => .error e
        | .ok (subs, r4) =>
          match r4 with
          | c4 :: p5 =>
            if c4 = '\x7d' then
              parseFormat fuel (acc ++ [Field.mk (String.mk ns.1) (String.mk os.1) subs]) false p5
            else .error .unterminatedField
          | [] => .error .unterminatedField
      else if c = '\x7d' then
        parseFormat fuel (acc ++ [Field.mk (String.mk ns.1) ("") ([])]) false p3
      else .error .unterminatedField
    | [] => .error .unterminatedField

/-- `while (*p == ':') { p++; subformats.push_back(parseFormat(p)); }` -/
def parseSubs : Nat → List Format → List Char → Except Err (List Format × List Char)
  | 0, _, _ => .error .outOfFuel
  | fuel+1, subs, p =>
    match p with
    | c :: p1 =>
      if c = ':' then
        match parseFormat fuel [] false p1 with
        | .error e => .error e
        | .ok fr => parseSubs fuel (subs ++ [fr.1]) fr.2
      else .ok (subs, c :: p1)
    | [] => .ok (subs, [])

end

/-- `Format fmt(const std::string& s)`: run the parser on the whole
string and return the parsed tree, ignoring any unconsumed rest. -/
def fmt (s : String) : Except Err Format :=
  match parseFormat (s.data.length + 1) [] false s.data with
  | .ok fr => .ok fr.1
  | .error e => .error e

/-- A dictionary entry is the type-erased `ValueWrapperBase`: the
capability to render itself given a `Field`. -/
abbrev Entry := Field → Except Err String

/-- `format::Dict`, a map from names to boxed renderables; rebinding
prepends, and lookup takes the first hit. -/
abbrev Dict := List (String × Entry)

/-- `std::string format(const Format& fs, const Dict& fd)`: concatenate,
in order, the options of static fields and the rendering of the value
bound to the name of each dynamic field; a missing name is the
`Field not present` error. -/
def format : Format → Dict → Except Err String
  | [], _ => .ok ("")
  | f :: rest, d =>
    if f.name ≠ "" then
      match d.lookup f.name with
      | none => .error (.fieldNotFound f.name)
      | some v =>
        match v f with
        | .error e => .error e
        | .ok s =>
          match format rest d with
          | .error e => .error e
          | .ok t => .ok (s ++ t)
    else
      match format rest d with
      | .error e => .error e
      | .ok t => .ok (f.options ++ t)

/-- `fmt(template) % dict`: parse then render. -/
def render (s : String) (d : Dict) : Except Err String :=
  match fmt s with
  | .error e => .error e
  | .ok f => format f d

/-! ### String formatter (`Formatter<std::string>::toString`) -/

/-- The `while (*p >= '0' && *p <= '9') width = width*10 + *p++ - '0'`
loops shared by the string and integer option parsers. -/
def readNat : List Char → Nat → Nat × List Char
  | [], acc => (acc, [])
  | c :: r, acc =>
    if '0' ≤ c ∧ c ≤ '9' then readNat r (acc * 10 + (c.toNat - '0'.toNat))
    else (acc, c :: r)

/-- Parsed general-mode string options. -/
structure StrOpts where
  align : Int
  width : Nat
  filler : Char
  overflow : Option Char
  upcase : Option Char
  strip : Nat

/-- The general-mode option parsing section of
`Formatter<std::string>::toString`: alignment, width, filler, overflow
char, case flag, strip flag, inert escape flag, then require the end of
the options. -/
def parseStrOpts (p0 : List Char) : Except Err StrOpts :=
  let ap := match p0 with
    | '<' :: r => ((-1 : Int), r)
    | '=' :: r => ((0 : Int), r)
    | '>' :: r => ((1 : Int), r)
    | _ => ((-1 : Int), p0)
  let wp := readNat ap.2 0
  let fp := match wp.2 with
    | '=' :: c :: r => (c, r)
    | _ => (' ', wp.2)
  let op := match fp.2 with
    | '>' :: c :: r => (some c, r)
    | _ => (none, fp.2)
  let up := match op.2 with
    | 'U' :: r => (some 'U', r)
    | 'l' :: r => (some 'l', r)
    | _ => (none, op.2)
  let sp := match up.2 with
    | 's' :: 'L' :: r => (1, 'L' :: r)
    | 's' :: 'R' :: r => (2, 'R' :: r)
    | 's' :: r => (3, r)
    | _ => (0, up.2)
  let ep := match sp.2 with
    | '/' :: 'C' :: r => r
    | _ => sp.2
  if ep.isEmpty then .ok ⟨ap.1, wp.1, fp.1, op.1, up.1, sp.1⟩
  else .error .invalidFormatSpec

/-- Strip stage: bit 1 of the strip flag removes leading spaces, bit 2
removes trailing spaces. -/
def stripStage (strip : Nat) (s : List Char) : List Char :=
  let s1 := if strip.land 1 = 1 then s.dropWhile (fun c => c = ' ') else s
  if strip.land 2 = 2 then (s1.reverse.dropWhile (fun c => c = ' ')).reverse else s1

/-- The string padding loop: while shorter than the width, insert the
filler at the front unless left-aligned, and append it at the back
unless right-aligned (fuelled; `fmt` calls it with enough fuel). -/
def padLoop : Nat → Int → Char → Nat → List Char → List Char
  | 0, _, _, _, s => s
  | fl+1, align, filler, width, s =>
    if s.length < width then
      let s1 := if align ≠ -1 then filler :: s else s
      let s2 := if s1.length < width ∧ align ≠ 1 then s1 ++ [filler] else s1
      padLoop fl align filler width s2
    else s

/-- Truncation/padding stage of the general string format: truncate to
the width if longer, else pad per the alignment. -/
def padTrunc (align : Int) (filler : Char) (width : Nat) (s : List Char) : List Char :=
  if 0 < width then
    if width < s.length then s.take width
    else padLoop (width + 1) align filler width s
  else s

/-- Case-conversion stage: `U` upper-cases, `l` lower-cases. -/
def caseConv (u : Option Char) (s : List Char) : List Char :=
  match u with
  | some 'U' => s.map Char.toUpper
  | some 'l' => s.map Char.toLower
  | _ => s

/-- Picture mode: each placeholder consumes the next character of the
value (or the filler once exhausted); other pattern chars pass through. -/
def pictureRun (ph fl : Char) : List Char → List Char → List Char
  | [], _ => []
  | c :: pat, s =>
    if c = ph then
      match s with
      | d :: s2 => d :: pictureRun ph fl pat s2
      | [] => fl :: pictureRun ph fl pat []
    else c :: pictureRun ph fl pat s

/-- `Formatter<std::string>::toString`.  Picture mode when the options
start with `@`; otherwise the general mode: parse options, strip, then
either replace with overflow characters (when a width is set, the
content exceeds it and an overflow char is given) or truncate/pad and
case-convert. -/
def strToString (x : String) (field : Field) : Except Err String :=
  if 0 < field.options.length ∧ field.options.data.head? = some '@' then
    let p1 := field.options.data.tail
    let pp := match p1 with
      | '=' :: c :: r => (c, r)
      | _ => ('#', p1)
    let fp := match pp.2 with
      | '<' :: c :: r => (c, r)
      | _ => (' ', pp.2)
    .ok (String.mk (pictureRun pp.1 fp.1 fp.2 x.data))
  else
    match parseStrOpts field.options.data with
    | .error e => .error e
    | .ok o =>
      let s2 := stripStage o.strip x.data
      if 0 < o.width ∧ o.width < s2.length then
        match o.overflow with
        | some oc => .ok (String.mk (List.replicate o.width oc))
        | none => .ok (String.mk (caseConv o.upcase (padTrunc o.align o.filler o.width s2)))
      else .ok (String.mk (caseConv o.upcase (padTrunc o.align o.filler o.width s2)))

/-- Modelled from the claim wording of the string-formatter processing
order (strip, then overflow/truncate/pad, then case conversion applied
last after whichever outcome occurred): used to compare the claimed
order with the code's behaviour. -/
def specStrGeneralClaim (x : String) (od : List Char) : Except Err String :=
  match parseStrOpts od with
  | .error e => .error e
  | .ok o =>
    let s2 := stripStage o.strip x.data
    let body :=
      if 0 < o.width ∧ o.width < s2.length then
        match o.overflow with
        | some oc => List.replicate o.width oc
        | none => padTrunc o.align o.filler o.width s2
      else padTrunc o.align o.filler o.width s2
    .ok (String.mk (caseConv o.upcase body))

/-! ### Integer formatter (`Formatter<int>::toString`) -/

/-- Parsed integer options. -/
structure IntOpts where
  align : Int
  plus : Bool
  filler : Char
  width : Nat
  overflowchar : Option Char
  base : Nat
  dsep : Nat
  dsepchar : Char
  upcase : Bool

/-- The option-parsing section of `Formatter<int>::toString`: alignment,
plus request, filler (`=c` or the single char `0`), width, overflow
char, base (`/nn` with optional `U`, or `x`, or `X`), digit grouping
(`,` optional group size defaulting to 3, optional separator char).
Returns the parsed options and the unconsumed rest (checked by
`intToString`). -/
def parseIntOpts (p0 : List Char) : IntOpts × List Char :=
  let ap := match p0 with
    | '<' :: r => ((-1 : Int), r)
    | '=' :: r => ((0 : Int), r)
    | '>' :: r => ((1 : Int), r)
    | _ => ((1 : Int), p0)
  let pp := match ap.2 with
    | '+' :: r => (true, r)
    | _ => (false, ap.2)
  let fp := match pp.2 with
    | '=' :: c :: r => (c, r)
    | '0' :: r => ('0', r)
    | _ => (' ', pp.2)
  let wp := readNat fp.2 0
  let op := match wp.2 with
    | '>' :: c :: r => (some c, r)
    | _ => (none, wp.2)
  let bp : Nat × Bool × List Char := match op.2 with
    | '/' :: r =>
      let br := readNat r 0
      match br.2 with
      | 'U' :: r3 => (br.1, true, r3)
      | _ => (br.1, false, br.2)
    | 'x' :: r => (16, false, r)
    | 'X' :: r => (16, true, r)
    | _ => (10, false, op.2)
  let dp : Nat × Char × List Char := match bp.2.2 with
    | ',' :: r =>
      let dr := readNat r 0
      let d := if dr.1 = 0 then 3 else dr.1
      match dr.2 with
      | c :: r3 => (d, c, r3)
      | [] => (d, ',', [])
    | _ => (0, ',', bp.2.2)
  (⟨ap.1, pp.1, fp.1, wp.1, op.1, bp.1, dp.1, dp.2.1, bp.2.1⟩, dp.2.2)

/-- One digit in the given case: `0`-`9`, then `a`-`z` or `A`-`Z`. -/
def digitChar (d : Nat) (upcase : Bool) : Char :=
  if d < 10 then Char.ofNat (48 + d)
  else if upcase then Char.ofNat (55 + d)
  else Char.ofNat (87 + d)

/-- The digit-generation do/while loop: emit digits of `x`
least-significant first, inserting the group separator after every
`dsep` digits while more digits remain.  Returns the emitted characters
(in emission order), the digit counter and the total character count
(fuelled; callers pass `x+1` which always suffices). -/
def digitLoop : Nat → Nat → Bool → Nat → Char → Nat → Nat → Nat → List Char × Nat × Nat
  | 0, _, _, _, _, _, digits, count => ([], digits, count)
  | fl+1, base, upcase, dsep, dsepchar, x, digits, count =>
    let c := digitChar (x % base) upcase
    let x2 := x / base
    let digits2 := digits + 1
    if x2 = 0 then ([c], digits2, count + 1)
    else if digits2 = dsep then
      let rec3 := digitLoop fl base upcase dsep dsepchar x2 0 (count + 2)
      (c :: dsepchar :: rec3.1, rec3.2.1, rec3.2.2)
    else
      let rec3 := digitLoop fl base upcase dsep dsepchar x2 digits2 (count + 1)
      (c :: rec3.1, rec3.2.1, rec3.2.2)

/-- The special right-aligned zero-filler loop: append `0` (and group
separators at group boundaries away from the reserved sign column)
until the count reaches the width minus the reserved sign column. -/
def zeroFill : Nat → Nat → Nat → Nat → Char → List Char → Nat → Nat → List Char × Nat × Nat
  | 0, _, _, _, _, acc, digits, count => (acc, digits, count)
  | fl+1, width, reserved, dsep, dsepchar, acc, digits, count =>
    if count < width - reserved then
      let count2 := count + 1
      let digits2 := digits + 1
      if digits2 = dsep ∧ count2 < width - reserved - 1 then
        zeroFill fl width reserved dsep dsepchar (acc ++ ['0', dsepchar]) 0 (count2 + 1)
      else
        zeroFill fl width reserved dsep dsepchar (acc ++ ['0']) digits2 count2
    else (acc, digits, count)

/-- The integer padding loop, operating on the reversed buffer: insert
the filler at the front unless right-aligned, append it at the back
unless left-aligned. -/
def intPad : Nat → Int → Char → Nat → List Char → Nat → List Char × Nat
  | 0, _, _, _, s, count => (s, count)
  | fl+1, align, filler, width, s, count =>
    if count < width then
      let t1 := if align ≠ 1 then (filler :: s, count + 1) else (s, count)
      let t2 := if t1.2 < width ∧ align ≠ -1 then (t1.1 ++ [filler], t1.2 + 1) else t1
      intPad fl align filler width t2.1 t2.2
    else (s, count)

/-- The rendering part of `Formatter<int>::toString` after option
validation: generate the digits of the absolute value in reverse order,
zero-fill when right-aligned with filler `0`, append the sign, then
either return the overflow replacement or pad per alignment and reverse
the buffer. -/
def intRender (x : Int) (o : IntOpts) : String :=
  let neg : Bool := decide (x < 0)
  let n := x.natAbs
  let dl := digitLoop (n + 1) o.base o.upcase o.dsep o.dsepchar n 0 0
  let reserved := if neg ∨ o.plus then 1 else 0
  let zf := if o.align = 1 ∧ o.filler = '0' then
      zeroFill (o.width + 1) o.width reserved o.dsep o.dsepchar dl.1 dl.2.1 dl.2.2
    else dl
  let sg := if neg then (zf.1 ++ ['-'], zf.2.2 + 1)
    else if o.plus then (zf.1 ++ ['+'], zf.2.2 + 1)
    else (zf.1, zf.2.2)
  if o.width ≠ 0 ∧ o.width < sg.2 ∧ o.overflowchar.isSome then
    String.mk (List.replicate o.width (o.overflowchar.getD ' '))
  else
    let pd := if o.width ≠ 0 ∧ sg.2 < o.width then
        intPad (o.width + 1) o.align o.filler o.width sg.1 sg.2
      else sg
    String.mk pd.1.reverse

/-- `Formatter<int>::toString`: parse the options, fail if the base is
out of `[2,36]` or characters remain, else render. -/
def intToString (x : Int) (field : Field) : Except Err String :=
  let pr := parseIntOpts field.options.data
  if pr.1.base < 2 ∨ 36 < pr.1.base ∨ ¬ pr.2.isEmpty then .error .invalidFormatSpec
  else .ok (intRender x pr.1)

/-- Decimal digits of a natural number, most significant first (the
specification form the digit loop is proved against). -/
def decDigitsF : Nat → Nat → List Char
  | 0, _ => []
  | fl+1, n =>
    if n < 10 then [digitChar n false]
    else decDigitsF fl (n / 10) ++ [digitChar (n % 10) false]

/-- Decimal digit string of a natural number. -/
def decDigits (n : Nat) : List Char := decDigitsF (n + 1) n

/-! ### Sequence, pair and container formatters -/

/-- `field.subformats.size() ? field.subformats[0] : fmt(dflt)`:
the first subformat if any, else the given default template. -/
def chosenFmt (field : Field) (dflt : String) : Format :=
  match field.subformats with
  | sf :: _ => sf
  | [] =>
    match fmt dflt with
    | .ok f => f
    | .error _ => []

/-- The element loop of `Formatter<Sequence<T>>::toString`: render each
element with the chosen subformat binding it to `*`, appending the
separator after every element except the last. -/
def seqGo {α : Type _} (fs : Format) (sep : String) (r : α → Entry) : List α → Except Err String
  | [] => .ok ("")
  | [x] => format fs [("*", r x)]
  | x :: y :: rest =>
    match format fs [("*", r x)] with
    | .error e => .error e
    | .ok s =>
      match seqGo fs sep r (y :: rest) with
      | .error e => .error e
      | .ok t => .ok (s ++ sep ++ t)

/-- `Formatter<Sequence<T>>::toString`: the options string is the
separator; elements are rendered with the first subformat (default
`"{*}"`) under the name `*`. -/
def seqToString {α : Type _} (xs : List α) (r : α → Entry) (field : Field) : Except Err String :=
  seqGo (chosenFmt field ("\x7b*\x7d")) field.options r xs

/-- `Formatter<std::pair<T1,T2>>::toString`: render with the first
subformat (default `"({*1}, {*2})"`) binding the components to `*1`
and `*2`. -/
def pairToString (r1 r2 : Entry) (field : Field) : Except Err String :=
  format (chosenFmt field ("(\x7b*1\x7d, \x7b*2\x7d)")) [("*1", r1), ("*2", r2)]

/-- `DEF_CONTAINER_FORMATTER`: non-empty options supply the bracket pair
(first `sz/2` characters opening, characters from `sz - sz/2` closing),
else the kind-specific defaults; the middle is the kind-specific default
sequence template (or the first subformat) rendered with the container
bound to `c`. -/
def containerToString (dBegin dEnd dFmt : String) {α : Type _}
    (x : List α) (r : α → Entry) (field : Field) : Except Err String :=
  let sz := field.options.length
  let opening := if sz ≠ 0 then String.mk (field.options.data.take (sz / 2)) else dBegin
  match format (chosenFmt field dFmt) [("c", fun fld => seqToString x r fld)] with
  | .error e => .error e
  | .ok mid =>
    let closing := if sz ≠ 0 then String.mk (field.options.data.drop (sz - sz / 2)) else dEnd
    .ok (opening ++ mid ++ closing)

/-- `Formatter<std::vector<T>>`. -/
def vectorToString {α : Type _} (x : List α) (r : α → Entry) (field : Field) : Except Err String :=
  containerToString ("[") ("]") ("\x7bc:, \x7d") x r field

/-- `Formatter<std::list<T>>`. -/
def listToString {α : Type _} (x : List α) (r : α → Entry) (field : Field) : Except Err String :=
  containerToString ("(") (")") ("\x7bc: \x7d") x r field

/-- `Formatter<std::set<T>>`. -/
def setToString {α : Type _} (x : List α) (r : α → Entry) (field : Field) : Except Err String :=
  containerToString ("\x7b") ("\x7d") ("\x7bc:, \x7d") x r field

/-- `Formatter<std::map<T1,T2>>`: elements are key/value pairs. -/
def mapToString {α : Type _} (x : List α) (r : α → Entry) (field : Field) : Except Err String :=
  containerToString ("\x7b|") ("|\x7d") ("\x7bc:, :\x7b*::\x7b*1\x7d -> \x7b*2\x7d\x7d\x7d") x r field

/-- Modelled from the claim wording for container brackets (the first
half of the options is the opening bracket and the remainder is the
closing bracket): used to compare the claimed split with the code's. -/
def specContainerClaim (dBegin dEnd dFmt : String) {α : Type _}
    (x : List α) (r : α → Entry) (field : Field) : Except Err String :=
  let sz := field.options.length
  let opening := if sz ≠ 0 then String.mk (field.options.data.take (sz / 2)) else dBegin
  match format (chosenFmt field dFmt) [("c", fun fld => seqToString x r fld)] with
  | .error e => .error e
  | .ok mid =>
    let closing := if sz ≠ 0 then String.mk (field.options.data.drop (sz / 2)) else dEnd
    .ok (opening ++ mid ++ closing)

/-- Separator-joined concatenation (specification form for the sequence
formatter: the separator appears between consecutive elements only). -/
def joinSep (sep : String) : List String → String
  | [] => ""
  | [s] => s
  | s :: t :: rest => s ++ sep ++ joinSep sep (t :: rest)

/-- Whether the character `a` immediately followed by `b` occurs in the
list (used to state which templates contain an empty-name placeholder
opener such as `\x7b\x7d` or `\x7b:`). -/
def hasPair (a b : Char) : List Char → Bool
  | x :: y :: rest => (decide (x = a) && decide (y = b)) || hasPair a b (y :: rest)
  | _ => false

/-- Templates considered by the amended C5 claim: no empty-name
placeholder opener (no literal `\x7b\x7d` and no literal `\x7b:` pair),
so every parsed placeholder has a non-empty name. -/
def GoodTemplate (p : List Char) : Prop :=
  hasPair '\x7b' '\x7d' p = false ∧ hasPair '\x7b' ':' p = false

mutual

/-- A field is well-formed when all its subformats are. -/
inductive FieldOk : Field → Prop where
  | intro (n o : String) (subs : List (List Field)) :
      (∀ g, g ∈ subs → FmtOk g) → FieldOk (Field.mk n o subs)

/-- A format has no two consecutive static fields (fields with empty
name), at every nesting level. -/
inductive FmtOk : List Field → Prop where
  | nil : FmtOk []
  | single (f : Field) : FieldOk f → FmtOk [f]
  | cons (f g : Field) (rest : List Field) :
      FieldOk f → ¬(f.name = "" ∧ g.name = "") → FmtOk (g :: rest) →
      FmtOk (f :: g :: rest)

end

/-! ## Scanner lemmas -/

theorem scanRun_escape (stops : List Char) (c : Char) (rest : List Char) :
    scanRun stops ('~' :: c :: rest) = (c :: (scanRun stops rest).1, (scanRun stops rest).2) := by
  simp [scanRun]

theorem scanRun_stop {c : Char} (stops : List Char) (p : List Char) (hc : c ∈ stops)
    (hnt : c ≠ '~') :
    scanRun stops (c :: p) = ([], c :: p) := by
  cases p with
  | nil => simp [scanRun, hc]
  | cons d r => simp [scanRun, hc, hnt]

theorem scanRun_cons_notStop {c : Char} (stops : List Char) (p : List Char)
    (hne : c ≠ '~') (hns : c ∉ stops) :
    scanRun stops (c :: p) = (c :: (scanRun stops p).1, (scanRun stops p).2) := by
  cases p with
  | nil => simp [scanRun, hns]
  | cons d r => simp [scanRun, hne, hns]

theorem scanRun_snd_suffix (stops : List Char) (p : List Char) :
    (scanRun stops p).2 <:+ p := by
  induction p using scanRun.induct stops with
  | case1 => simp [scanRun]
  | case2 c h => simp [scanRun, h]
  | case3 c h => simp [scanRun, h]
  | case4 d rest ih =>
    rw [scanRun_escape]
    exact ih.trans ((List.suffix_cons d rest).trans (List.suffix_cons '~' (d :: rest)))
  | case5 c d rest h1 h2 =>
    rw [scanRun_stop stops _ h2 h1]
  | case6 c d rest h1 h2 ih =>
    rw [scanRun_cons_notStop stops _ h1 h2]
    exact ih.trans (List.suffix_cons c (d :: rest))

theorem scanRun_snd_length (stops : List Char) (p : List Char) :
    (scanRun stops p).2.length ≤ p.length :=
  (scanRun_snd_suffix stops p).length_le

theorem scanRun_snd_cases (stops : List Char) (p : List Char) :
    (scanRun stops p).2 = [] ∨
      ∃ c r, (scanRun stops p).2 = c :: r ∧ c ∈ stops := by
  induction p using scanRun.induct stops with
  | case1 => simp [scanRun]
  | case2 c h => exact Or.inr ⟨c, [], by simp [scanRun, h], h⟩
  | case3 c h => simp [scanRun, h]
  | case4 d rest ih => rw [scanRun_escape]; exact ih
  | case5 c d rest h1 h2 =>
    rw [scanRun_stop stops _ h2 h1]
    exact Or.inr ⟨c, d :: rest, rfl, h2⟩
  | case6 c d rest h1 h2 ih =>
    rw [scanRun_cons_notStop stops _ h1 h2]
    exact ih

theorem scanRun_fst_ne_nil {c : Char} (stops : List Char) (p : List Char)
    (hns : c ∉ stops) : (scanRun stops (c :: p)).1 ≠ [] := by
  by_cases hct : c = '~'
  · subst hct
    cases p with
    | nil => simp [scanRun, hns]
    | cons d rest => rw [scanRun_escape]; simp
  · rw [scanRun_cons_notStop stops p hct hns]; simp

/-- Claim C1: a `~` followed by any character is consumed as a pair and
yields that character literally, in every scanning context (static
text, name, options all use the same scanning loop, so the property is
stated for every stop set); consequently `"a~{b~}c"` renders with an
empty dictionary to `"a{b}c"` and `"x~~y"` renders to `"x~y"`. -/
theorem c1_escape_pair :
    (∀ (stops : List Char) (c : Char) (rest : List Char),
       scanRun stops ('~' :: c :: rest) =
         (c :: (scanRun stops rest).1, (scanRun stops rest).2))
    ∧ render ("a~\x7bb~\x7dc") [] = .ok ("a\x7bb\x7dc")
    ∧ render ("x~~y") [] = .ok ("x~y") :=
  ⟨scanRun_escape, rfl, rfl⟩

/-! ## Format-engine lemmas -/

theorem format_append (a b : Format) (d : Dict) :
    format (a ++ b) d =
      match format a d with
      | .error e => .error e
      | .ok s =>
        match format b d with
        | .error e => .error e
        | .ok t => .ok (s ++ t) := by
  induction a with
  | nil =>
    simp only [List.nil_append, format]
    cases format b d with
    | error e => rfl
    | ok t => dsimp only; rw [String.empty_append]
  | cons g a ih =>
    rw [List.cons_append, format, format, ih]
    by_cases hg : g.name ≠ ""
    · simp only [if_pos hg]
      cases d.lookup g.name with
      | none => rfl
      | some v =>
        dsimp only
        cases v g with
        | error e => rfl
        | ok sv =>
          dsimp only
          cases format a d with
          | error e => rfl
          | ok s =>
            dsimp only
            cases format b d with
            | error e => rfl
            | ok t => dsimp only; rw [String.append_assoc]
    · simp only [if_neg hg]
      cases format a d with
      | error e => rfl
      | ok s =>
        dsimp only
        cases format b d with
        | error e => rfl
        | ok t => dsimp only; rw [String.append_assoc]

theorem format_missing (pre rest : Format) (f : Field) (d : Dict) (s : String)
    (hn : f.name ≠ "") (hl : d.lookup f.name = none) (hpre : format pre d = .ok s) :
    format (pre ++ f :: rest) d = .error (.fieldNotFound f.name) := by
  rw [format_append, hpre]
  have hf : format (f :: rest) d = .error (.fieldNotFound f.name) := by
    simp [format, hn, hl]
  rw [hf]

/-- Claim C7: a dynamic field whose name is not bound in the dictionary
makes rendering fail with `fieldNotFound` of that name (once the fields
before it have rendered), and the error propagates to the caller of
`format`; in particular `render "{y}"` with the empty dictionary fails
with `fieldNotFound "y"`. -/
theorem c7_field_not_found :
    (∀ (pre rest : Format) (f : Field) (d : Dict) (s : String),
       f.name ≠ "" → d.lookup f.name = none → format pre d = .ok s →
       format (pre ++ f :: rest) d = .error (.fieldNotFound f.name))
    ∧ render ("\x7by\x7d") [] = .error (.fieldNotFound ("y")) :=
  ⟨fun pre rest f d s hn hl hpre => format_missing pre rest f d s hn hl hpre, rfl⟩

/-- Witness for C7 at a concrete field and dictionary. -/
theorem c7_witness :
    ((Field.mk ("y") ("") ([])).name ≠ "" ∧
      ([] : Dict).lookup (Field.mk ("y") ("") ([])).name = none ∧
      format [] [] = .ok ("")) ∧
    format ([] ++ Field.mk ("y") ("") ([]) :: []) [] =
      .error (.fieldNotFound (Field.mk ("y") ("") ([])).name) :=
  ⟨⟨by decide, rfl, rfl⟩,
   c7_field_not_found.1 [] [] (Field.mk ("y") ("") ([])) [] ("") (by decide) rfl rfl⟩

/-- Claim C9: a placeholder with an empty name parses successfully
(`"{}"` and `"{:text}"` give a field with empty name whose options hold
the text after the colon) and is rendered as a static field: its
options are appended verbatim with no dictionary lookup, for every
dictionary. -/
theorem c9_empty_name_placeholder :
    fmt ("\x7b\x7d") = .ok [Field.mk ("") ("") ([])]
    ∧ fmt ("\x7b:abc\x7d") = .ok [Field.mk ("") ("abc") ([])]
    ∧ (∀ (opts : String) (subs : List Format) (d : Dict),
        format [Field.mk ("") (opts) (subs)] d = .ok opts)
    ∧ (∀ d : Dict, render ("\x7b:abc\x7d") d = .ok ("abc"))
    ∧ (∀ d : Dict, render ("\x7b\x7d") d = .ok ("")) := by
  refine ⟨rfl, rfl, ?_, ?_, ?_⟩
  · intro opts subs d
    simp [format, Field.name, Field.options, String.append_empty]
  · intro d
    show format [Field.mk ("") ("abc") ([])] d = .ok ("abc")
    simp [format, Field.name, Field.options]
  · intro d
    show format [Field.mk ("") ("") ([])] d = .ok ("")
    simp [format, Field.name, Field.options]

/-! ## Sequence formatter lemmas -/

theorem seqGo_joinSep {α : Type} (fs : Format) (sep : String) (r : α → Entry) :
    ∀ (xs : List α) (parts : List String),
      xs.mapM (fun x => format fs [("*", r x)]) = .ok parts →
      seqGo fs sep r xs = .ok (joinSep sep parts) := by
  intro xs
  induction xs with
  | nil =>
    intro parts hm
    simp only [List.mapM_nil] at hm
    cases hm
    rfl
  | cons x xs ih =>
    intro parts hm
    rw [List.mapM_cons] at hm
    match hfx : format fs [("*", r x)] with
    | .error e => rw [hfx] at hm; exact absurd hm (by simp [Bind.bind, Except.bind])
    | .ok s =>
      rw [hfx] at hm
      match hxs : xs.mapM (fun x => format fs [("*", r x)]) with
      | .error e => rw [hxs] at hm; exact absurd hm (by simp [Bind.bind, Except.bind])
      | .ok ps =>
        rw [hxs] at hm
        simp only [Bind.bind, Except.bind, pure, Except.pure, Except.ok.injEq] at hm
        subst hm
        cases xs with
        | nil =>
          simp only [List.mapM_nil, pure, Except.pure, Except.ok.injEq] at hxs
          subst hxs
          simpa [seqGo, joinSep] using hfx
        | cons y rest =>
          rw [List.mapM_cons] at hxs
          match hfy : format fs [("*", r y)] with
          | .error e => rw [hfy] at hxs; exact absurd hxs (by simp [Bind.bind, Except.bind])
          | .ok s2 =>
            rw [hfy] at hxs
            match hrest : rest.mapM (fun x => format fs [("*", r x)]) with
            | .error e => rw [hrest] at hxs; exact absurd hxs (by simp [Bind.bind, Except.bind])
            | .ok ps2 =>
              rw [hrest] at hxs
              simp only [Bind.bind, Except.bind, pure, Except.pure, Except.ok.injEq] at hxs
              subst hxs
              have hgo := ih (s2 :: ps2) (by rw [List.mapM_cons, hfy, hrest]; rfl)
              rw [seqGo, hfx, hgo]
              simp [joinSep]

/-- Claim C6: the sequence formatter renders each element with the
first subformat (default `"{*}"`) binding the element to `*`, and the
options string separates consecutive elements only: the empty sequence
renders to `""`, a singleton renders to exactly the element's
rendering, and in general a successfully rendered sequence is the
separator-join of the element renderings. -/
theorem c6_sequence :
    (∀ (α : Type) (r : α → Entry) (field : Field),
       seqToString ([] : List α) r field = .ok (""))
    ∧ (∀ (α : Type) (r : α → Entry) (field : Field) (x : α),
       seqToString [x] r field = format (chosenFmt field ("\x7b*\x7d")) [("*", r x)])
    ∧ (∀ (α : Type) (r : α → Entry) (field : Field) (xs : List α) (parts : List String),
       xs.mapM (fun x => format (chosenFmt field ("\x7b*\x7d")) [("*", r x)]) = .ok parts →
       seqToString xs r field = .ok (joinSep field.options parts)) :=
  ⟨fun _ _ _ => rfl, fun _ _ _ _ => rfl,
   fun _ r field xs parts hm => seqGo_joinSep _ field.options r xs parts hm⟩

/-- Witness for C6 on a two-element sequence with a constant renderer. -/
theorem c6_witness :
    ([1, 2].mapM (fun x => format (chosenFmt (Field.mk ("q") (", ") ([])) ("\x7b*\x7d"))
        [("*", (fun (_ : Nat) => (fun _ => .ok ("e") : Entry)) x)]) = .ok ["e", "e"])
    ∧ seqToString [1, 2] (fun (_ : Nat) => (fun _ => .ok ("e") : Entry))
        (Field.mk ("q") (", ") ([])) = .ok ("e, e") :=
  ⟨rfl,
   c6_sequence.2.2 Nat (fun _ => fun _ => .ok ("e")) (Field.mk ("q") (", ") ([]))
     [1, 2] ["e", "e"] rfl⟩

/-! ## Container bracket claims (C4) -/

/-- Counterexample to claim C4: with the odd-length options `"abc"` the
opening bracket is `"a"` and the closing bracket is `"c"`; the middle
character `b` appears in neither bracket, so the closing bracket is not
the remainder of the options after the first half. -/
theorem c4_counterexample :
    containerToString ("[") ("]") ("\x7bc:, \x7d") ([] : List Nat)
        (fun _ => fun _ => .ok ("")) (Field.mk ("m") ("abc") ([])) = .ok ("ac")
    ∧ specContainerClaim ("[") ("]") ("\x7bc:, \x7d") ([] : List Nat)
        (fun _ => fun _ => .ok ("")) (Field.mk ("m") ("abc") ([])) = .ok ("abc")
    ∧ ("ac" : String) ≠ ("abc") :=
  ⟨rfl, rfl, by decide⟩

/-- Claim C4 as amended: for every container kind (the defaults are
arbitrary), when the options string is empty the kind-specific default
bracket pair is used verbatim around the rendered middle; for non-empty
options of length `sz` the opening bracket is the first `sz / 2`
characters and the closing bracket is the last `sz / 2` characters, the
ones from position `sz - sz / 2`; each bracket has exactly `sz / 2`
characters, and the options decompose as opening bracket, then `sz % 2`
middle characters that appear in neither bracket, then closing bracket
(so for even `sz` every character appears in exactly one bracket). -/
theorem c4_amended (dB dE dFmt : String) (α : Type) (xs : List α) (r : α → Entry)
    (field : Field) (m : String)
    (hm : format (chosenFmt field dFmt) [("c", fun fld => seqToString xs r fld)] = .ok m) :
    (field.options ≠ "" →
      (containerToString dB dE dFmt xs r field =
        .ok (String.mk (field.options.data.take (field.options.length / 2)) ++ m ++
             String.mk (field.options.data.drop
               (field.options.length - field.options.length / 2))))
      ∧ (field.options.data.take (field.options.length / 2)).length
          = field.options.length / 2
      ∧ (field.options.data.drop
           (field.options.length - field.options.length / 2)).length
          = field.options.length / 2
      ∧ field.options.data =
          field.options.data.take (field.options.length / 2)
          ++ (field.options.data.drop (field.options.length / 2)).take
               (field.options.length % 2)
          ++ field.options.data.drop (field.options.length - field.options.length / 2)
      ∧ ((field.options.data.drop (field.options.length / 2)).take
           (field.options.length % 2)).length = field.options.length % 2)
    ∧ (field.options = "" →
        containerToString dB dE dFmt xs r field = .ok (dB ++ m ++ dE)) := by
  constructor
  · intro hne
    have hlen : field.options.length = field.options.data.length := rfl
    have hsz : field.options.length ≠ 0 := by
      intro h0
      apply hne
      have : field.options.data = [] := List.length_eq_zero.mp (hlen ▸ h0)
      exact String.ext this
    refine ⟨?_, ?_, ?_, ?_, ?_⟩
    · rw [containerToString]
      rw [hm]
      simp [hsz]
    · simp only [List.length_take]
      omega
    · simp only [List.length_drop]
      omega
    · have hsplit : field.options.length - field.options.length / 2 =
          field.options.length / 2 + field.options.length % 2 := by omega
      rw [hsplit, ← List.drop_drop, List.append_assoc]
      rw [List.take_append_drop, List.take_append_drop]
    · simp only [List.length_take, List.length_drop]
      omega
  · intro hopt
    rw [containerToString]
    rw [hm]
    simp [hopt]

/-- Witness for C4 at a concrete container, exercising both the
non-empty-options bracket halves and the empty-options default pair. -/
theorem c4_witness :
    ((format (chosenFmt (Field.mk ("m") ("abcd") ([])) ("\x7bc:, \x7d"))
        [("c", fun fld => seqToString ([] : List Nat) (fun _ => fun _ => .ok ("")) fld)]
        = .ok ("") ∧ (Field.mk ("m") ("abcd") ([])).options ≠ "" ∧
      containerToString ("[") ("]") ("\x7bc:, \x7d") ([] : List Nat)
        (fun _ => fun _ => .ok ("")) (Field.mk ("m") ("abcd") ([])) =
      .ok (String.mk ((("abcd") : String).data.take 2) ++ ("") ++
           String.mk ((("abcd") : String).data.drop 2))) ∧
     ((Field.mk ("m") ("") ([])).options = "" ∧
      containerToString ("[") ("]") ("\x7bc:, \x7d") ([] : List Nat)
        (fun _ => fun _ => .ok ("")) (Field.mk ("m") ("") ([])) =
      .ok (("[") ++ ("") ++ ("]")))) :=
  ⟨⟨rfl, by decide,
    ((c4_amended ("[") ("]") ("\x7bc:, \x7d") Nat [] (fun _ => fun _ => .ok (""))
      (Field.mk ("m") ("abcd") ([])) ("") rfl).1 (by decide)).1⟩,
   ⟨rfl,
    (c4_amended ("[") ("]") ("\x7bc:, \x7d") Nat [] (fun _ => fun _ => .ok (""))
      (Field.mk ("m") ("") ([])) ("") rfl).2 rfl⟩⟩

/-! ## String-formatter processing order (C3) -/

/-- Counterexample to claim C3: with options `"1>aU"` (width 1,
overflow char `a`, upper-case flag) and value `"ab"`, the code replaces
the output with the overflow characters and skips the case conversion,
producing `"a"`, while the claimed order (case conversion last, after
whichever outcome occurred) would produce `"A"`. -/
theorem c3_counterexample :
    strToString ("ab") (Field.mk ("s") ("1>aU") ([])) = .ok ("a")
    ∧ specStrGeneralClaim ("ab") (("1>aU") : String).data = .ok ("A")
    ∧ ("a" : String) ≠ ("A") :=
  ⟨rfl, rfl, by decide⟩

/-- Claim C3 as amended: in the general mode the processing order is
strip, then the width stage, then case conversion — but the case
conversion is only applied on the truncate/pad path; when the overflow
replacement fires (width positive, stripped content longer than the
width, overflow char set) the output is exactly `width` copies of the
overflow char with no case conversion applied. -/
theorem c3_amended :
    (∀ (x : String) (field : Field) (o : StrOpts) (oc : Char),
       field.options.data.head? ≠ some '@' →
       parseStrOpts field.options.data = .ok o →
       o.overflow = some oc → 0 < o.width →
       o.width < (stripStage o.strip x.data).length →
       strToString x field = .ok (String.mk (List.replicate o.width oc)))
    ∧ (∀ (x : String) (field : Field) (o : StrOpts),
       field.options.data.head? ≠ some '@' →
       parseStrOpts field.options.data = .ok o →
       ¬(0 < o.width ∧ o.width < (stripStage o.strip x.data).length ∧ o.overflow.isSome) →
       strToString x field =
         .ok (String.mk (caseConv o.upcase
           (padTrunc o.align o.filler o.width (stripStage o.strip x.data))))) := by
  have hmode : ∀ (field : Field), field.options.data.head? ≠ some '@' →
      ¬(0 < field.options.length ∧ field.options.data.head? = some '@') := by
    intro field hh hc
    exact hh hc.2
  constructor
  · intro x field o oc hh hpo hov hw hlen
    rw [strToString, if_neg (hmode field hh), hpo]
    dsimp only
    rw [if_pos ⟨hw, hlen⟩, hov]
  · intro x field o hh hpo hcond
    rw [strToString, if_neg (hmode field hh), hpo]
    dsimp only
    by_cases hwl : 0 < o.width ∧ o.width < (stripStage o.strip x.data).length
    · rw [if_pos hwl]
      have hovn : o.overflow = none := by
        cases hov : o.overflow with
        | none => rfl
        | some oc => exact absurd ⟨hwl.1, hwl.2, by rw [hov]; rfl⟩ hcond
      rw [hovn]
    · rw [if_neg hwl]

/-- Witness for C3 as amended, on the counterexample input. -/
theorem c3_witness :
    ((("1>aU") : String).data.head? ≠ some '@' ∧
      parseStrOpts (("1>aU") : String).data = .ok ⟨-1, 1, ' ', some 'a', some 'U', 0⟩ ∧
      0 < (1 : Nat) ∧ 1 < (stripStage 0 (("ab") : String).data).length) ∧
    strToString ("ab") (Field.mk ("s") ("1>aU") ([])) =
      .ok (String.mk (List.replicate 1 'a')) :=
  ⟨⟨by decide, rfl, by decide, by decide⟩,
   c3_amended.1 ("ab") (Field.mk ("s") ("1>aU") ([])) ⟨-1, 1, ' ', some 'a', some 'U', 0⟩
     'a' (by decide) rfl rfl (by decide) (by decide)⟩

/-! ## Integer formatter lemmas (C2) -/

theorem decDigitsF_irrel : ∀ (a b n : Nat), n < a → n < b → decDigitsF a n = decDigitsF b n := by
  intro a
  induction a with
  | zero => intro b n ha; omega
  | succ a ih =>
    intro b n ha hb
    cases b with
    | zero => omega
    | succ b =>
      rw [decDigitsF, decDigitsF]
      by_cases h10 : n < 10
      · simp [h10]
      · simp only [if_neg h10]
        have hdl : n / 10 < n := Nat.div_lt_self (by omega) (by omega)
        rw [ih b (n / 10) (by omega) (by omega)]

theorem decDigits_lt10 (n : Nat) (h : n < 10) : decDigits n = [digitChar n false] := by
  simp [decDigits, decDigitsF, h]

theorem decDigits_ge10 (n : Nat) (h : ¬ n < 10) :
    decDigits n = decDigits (n / 10) ++ [digitChar (n % 10) false] := by
  rw [decDigits, decDigitsF]
  simp only [if_neg h]
  have hdl : n / 10 < n := Nat.div_lt_self (by omega) (by omega)
  rw [decDigitsF_irrel n (n / 10 + 1) (n / 10) (by omega) (by omega)]
  rfl

theorem decDigits_ne_nil (n : Nat) : decDigits n ≠ [] := by
  by_cases h : n < 10
  · rw [decDigits_lt10 n h]; simp
  · rw [decDigits_ge10 n h]; simp

theorem digitLoop_dec (sep : Char) :
    ∀ (fl n digits count : Nat), n < fl →
      digitLoop fl 10 false 0 sep n digits count =
        ((decDigits n).reverse, digits + (decDigits n).length,
         count + (decDigits n).length) := by
  intro fl
  induction fl with
  | zero => intro n digits count h; omega
  | succ fl ih =>
    intro n digits count hn
    rw [digitLoop]
    by_cases h10 : n < 10
    · have hz : n / 10 = 0 := Nat.div_eq_of_lt h10
      have hm : n % 10 = n := Nat.mod_eq_of_lt h10
      simp [hz, hm, decDigits_lt10 n h10]
    · have hz : ¬ n / 10 = 0 := by omega
      have hd0 : ¬ (digits + 1 = 0) := by omega
      simp only [if_neg hz, if_neg hd0]
      have hrec : n / 10 < fl := by
        have hlt : n / 10 < n := Nat.div_lt_self (by omega) (by omega)
        omega
      rw [ih (n / 10) (digits + 1) (count + 1) hrec]
      simp only [decDigits_ge10 n h10, List.reverse_append, List.reverse_cons,
        List.reverse_nil, List.nil_append, List.singleton_append, List.length_append,
        List.length_cons, List.length_nil, Prod.mk.injEq]
      refine ⟨by simp, by omega, by omega⟩

theorem zeroFill_dec (sep : Char) :
    ∀ (fl width reserved : Nat) (acc : List Char) (digits count : Nat),
      width - reserved ≤ count + fl →
      zeroFill fl width reserved 0 sep acc digits count =
        (acc ++ List.replicate (width - reserved - count) '0',
         digits + (width - reserved - count),
         count + (width - reserved - count)) := by
  intro fl
  induction fl with
  | zero =>
    intro width reserved acc digits count h
    have h0 : width - reserved - count = 0 := by omega
    rw [zeroFill]
    simp [h0]
  | succ fl ih =>
    intro width reserved acc digits count h
    rw [zeroFill]
    by_cases hc : count < width - reserved
    · simp only [if_pos hc]
      have hd : ¬ (digits + 1 = 0 ∧ count + 1 < width - reserved - 1) := by omega
      simp only [if_neg hd]
      rw [ih width reserved (acc ++ ['0']) (digits + 1) (count + 1) (by omega)]
      have harith : width - reserved - count = (width - reserved - (count + 1)) + 1 := by omega
      simp only [Prod.mk.injEq]
      refine ⟨?_, by omega, by omega⟩
      rw [harith, List.replicate_succ, List.append_assoc, List.singleton_append]
    · simp only [if_neg hc]
      have h0 : width - reserved - count = 0 := by omega
      simp [h0]

theorem intRender_zeroPad (x : Int) (w : Nat) (plus : Bool)
    (h : (decDigits x.natAbs).length + (if x < 0 ∨ plus = true then 1 else 0) ≤ w) :
    intRender x ⟨1, plus, '0', w, none, 10, 0, ',', false⟩ =
      String.mk ((if x < 0 then ['-'] else if plus = true then ['+'] else [])
        ++ List.replicate (w - (if x < 0 ∨ plus = true then 1 else 0)
             - (decDigits x.natAbs).length) '0'
        ++ decDigits x.natAbs) := by
  rw [intRender]
  dsimp only
  rw [digitLoop_dec ',' (x.natAbs + 1) x.natAbs 0 0 (Nat.lt_succ_self _)]
  rw [if_pos (⟨rfl, rfl⟩ : ((1:Int) = 1 ∧ ('0':Char) = '0'))]
  set L := (decDigits x.natAbs).length with hL
  by_cases hx : x < 0
  · have hneg : decide (x < 0) = true := by simp [hx]
    have hres : (if x < 0 ∨ plus = true then 1 else 0) = 1 := by simp [hx]
    rw [hres] at h
    simp only [hneg, Nat.zero_add, true_or, if_true, if_pos trivial]
    rw [zeroFill_dec ',' (w+1) w 1 (decDigits x.natAbs).reverse L L (by omega)]
    dsimp only
    have hc2 : L + (w - 1 - L) = w - 1 := by omega
    rw [hc2]
    have hcond1 : ¬(w ≠ 0 ∧ w < (w - 1) + 1 ∧ (none : Option Char).isSome = true) := by
      simp
    rw [if_neg hcond1]
    have hcond2 : ¬(w ≠ 0 ∧ (w - 1) + 1 < w) := by omega
    rw [if_neg hcond2]
    dsimp only
    rw [hres]
    simp [hx, List.reverse_append, List.reverse_replicate]
  · have hneg : decide (x < 0) = false := by simp [hx]
    simp only [hneg, Bool.false_eq_true, false_or, if_false, Nat.zero_add]
    cases plus with
    | true =>
      have hres : (if x < 0 ∨ (true : Bool) = true then 1 else 0) = 1 := by simp
      rw [hres] at h
      simp only [if_pos trivial]
      rw [zeroFill_dec ',' (w+1) w 1 (decDigits x.natAbs).reverse L L (by omega)]
      dsimp only
      have hc2 : L + (w - 1 - L) = w - 1 := by omega
      rw [hc2]
      have hcond1 : ¬(w ≠ 0 ∧ w < (w - 1) + 1 ∧ (none : Option Char).isSome = true) := by
        simp
      rw [if_neg hcond1]
      have hcond2 : ¬(w ≠ 0 ∧ (w - 1) + 1 < w) := by omega
      rw [if_neg hcond2]
      dsimp only
      simp [hx, List.reverse_append, List.reverse_replicate]
    | false =>
      have hres : (if x < 0 ∨ (false : Bool) = true then 1 else 0) = 0 := by simp [hx]
      rw [hres] at h
      simp only [Bool.false_eq_true, if_false]
      rw [zeroFill_dec ',' (w+1) w 0 (decDigits x.natAbs).reverse L L (by omega)]
      dsimp only
      have hc2 : L + (w - 0 - L) = w := by omega
      rw [hc2]
      have hcond1 : ¬(w ≠ 0 ∧ w < w ∧ (none : Option Char).isSome = true) := by
        simp
      rw [if_neg hcond1]
      have hcond2 : ¬(w ≠ 0 ∧ w < w) := by omega
      rw [if_neg hcond2]
      dsimp only
      simp [hx, List.reverse_append, List.reverse_replicate]

/-- Claim C2: when right/default-aligned with fill character `0` (and
no grouping, base 10), the integer formatter zero-pads the digit string
up to the width minus one reserved column when a sign will be emitted
(`-` for a negative value, `+` when requested) and appends the sign
after the padding, so the sign ends up in front of the zeros; in
particular formatting `7` with options `"04"` yields `"0007"` and
formatting `-7` with options `"04"` yields `"-007"`. -/
theorem c2_int_zero_pad :
    (∀ (x : Int) (w : Nat) (plus : Bool),
       (decDigits x.natAbs).length + (if x < 0 ∨ plus = true then 1 else 0) ≤ w →
       intRender x ⟨1, plus, '0', w, none, 10, 0, ',', false⟩ =
         String.mk ((if x < 0 then ['-'] else if plus = true then ['+'] else [])
           ++ List.replicate (w - (if x < 0 ∨ plus = true then 1 else 0)
                - (decDigits x.natAbs).length) '0'
           ++ decDigits x.natAbs))
    ∧ intToString 7 (Field.mk ("v") ("04") ([])) = .ok ("0007")
    ∧ intToString (-7) (Field.mk ("v") ("04") ([])) = .ok ("-007") :=
  ⟨intRender_zeroPad, rfl, rfl⟩

/-- Witness for C2 at `7` and `-7` with width `4`. -/
theorem c2_witness :
    ((decDigits (Int.natAbs 7)).length + (if (7 : Int) < 0 ∨ false = true then 1 else 0) ≤ 4 ∧
     (decDigits (Int.natAbs (-7))).length + (if (-7 : Int) < 0 ∨ false = true then 1 else 0) ≤ 4) ∧
    intRender 7 ⟨1, false, '0', 4, none, 10, 0, ',', false⟩ = String.mk ['0', '0', '0', '7'] ∧
    intRender (-7) ⟨1, false, '0', 4, none, 10, 0, ',', false⟩ = String.mk ['-', '0', '0', '7'] :=
  ⟨⟨by decide, by decide⟩,
   by rw [c2_int_zero_pad.1 7 4 false (by decide)]; decide,
   by rw [c2_int_zero_pad.1 (-7) 4 false (by decide)]; decide⟩


/-! ## Parser lemmas -/


theorem getLast?_of_suffix {q p : List Char} (h : q <:+ p) (hq : q ≠ []) :
    q.getLast? = p.getLast? := by
  obtain ⟨pre, rfl⟩ := h
  rw [List.getLast?_append]
  cases hql : q.getLast? with
  | none => exact absurd (List.getLast?_eq_none_iff.mp hql) hq
  | some a => rfl

theorem scanRun_append_of_ne (stops q : List Char) (hts : '~' ∉ stops) :
    ∀ p, (scanRun stops p).2 ≠ [] →
      scanRun stops (p ++ q) = ((scanRun stops p).1, (scanRun stops p).2 ++ q) := by
  intro p
  induction p using scanRun.induct stops with
  | case1 => intro h; simp [scanRun] at h
  | case2 c hc =>
    intro h
    have hcn : c ≠ '~' := fun he => hts (he ▸ hc)
    rw [List.cons_append, List.nil_append, scanRun_stop stops q hc hcn]
    simp [scanRun, hc]
  | case3 c hc =>
    intro h
    simp [scanRun, hc] at h
  | case4 d rest ih =>
    intro h
    rw [scanRun_escape] at h ⊢
    rw [List.cons_append, List.cons_append, scanRun_escape, ih h]
  | case5 c d rest h1 h2 =>
    intro h
    rw [scanRun_stop stops _ h2 h1]
    rw [List.cons_append, scanRun_stop stops _ h2 h1]
  | case6 c d rest h1 h2 ih =>
    intro h
    rw [scanRun_cons_notStop stops _ h1 h2] at h ⊢
    rw [List.cons_append, scanRun_cons_notStop stops _ h1 h2, ih h]

theorem scanRun_append_stop (stops : List Char) (c0 : Char) (t : List Char)
    (hc0 : c0 ∈ stops) (hts : '~' ∉ stops) :
    ∀ p, (scanRun stops p).2 = [] → p.getLast? ≠ some '~' →
      scanRun stops (p ++ c0 :: t) = ((scanRun stops p).1, c0 :: t) := by
  have hc0n : c0 ≠ '~' := fun he => hts (he ▸ hc0)
  intro p
  induction p using scanRun.induct stops with
  | case1 =>
    intro _ _
    rw [List.nil_append, scanRun_stop stops t hc0 hc0n]
    simp [scanRun]
  | case2 c hc =>
    intro h
    simp [scanRun, hc] at h
  | case3 c hc =>
    intro h hlast
    have hcn : c ≠ '~' := by
      intro he
      exact hlast (by simp [he])
    rw [List.cons_append, List.nil_append,
      scanRun_cons_notStop stops (c0 :: t) hcn hc, scanRun_stop stops t hc0 hc0n]
    simp [scanRun, hc]
  | case4 d rest ih =>
    intro h hlast
    rw [scanRun_escape] at h ⊢
    rw [List.cons_append, List.cons_append, scanRun_escape]
    cases rest with
    | nil =>
      rw [List.nil_append, scanRun_stop stops t hc0 hc0n]
      simp [scanRun] at h ⊢
    | cons e rest2 =>
      rw [ih h (by rw [← List.getLast?_cons_cons (a := d), ← List.getLast?_cons_cons (a := '~')]; exact hlast)]
  | case5 c d rest h1 h2 =>
    intro h
    rw [scanRun_stop stops _ h2 h1] at h
    simp at h
  | case6 c d rest h1 h2 ih =>
    intro h hlast
    rw [scanRun_cons_notStop stops _ h1 h2] at h ⊢
    rw [List.cons_append, scanRun_cons_notStop stops _ h1 h2]
    rw [ih h (by rw [← List.getLast?_cons_cons (a := c)]; exact hlast)]


theorem parse_rest_suffix :
    ∀ fuel : Nat,
      (∀ acc ls p f r, parseFormat fuel acc ls p = .ok (f, r) → r <:+ p) ∧
      (∀ acc p f r, parseField fuel acc p = .ok (f, r) → r <:+ p) ∧
      (∀ subs p ss r, parseSubs fuel subs p = .ok (ss, r) → r <:+ p) := by
  intro fuel
  induction fuel with
  | zero =>
    refine ⟨?_, ?_, ?_⟩
    · intro acc ls p f r h; simp [parseFormat] at h
    · intro acc p f r h; simp [parseField] at h
    · intro subs p ss r h; simp [parseSubs] at h
  | succ fuel ih =>
    obtain ⟨ihF, ihD, ihS⟩ := ih
    refine ⟨?_, ?_, ?_⟩
    · intro acc ls p f r h
      cases p with
      | nil =>
        simp only [parseFormat, Except.ok.injEq, Prod.mk.injEq] at h
        rw [← h.2]
      | cons c p0 =>
        simp only [parseFormat] at h
        by_cases hc : c = '}'
        · rw [if_pos hc] at h
          simp only [Except.ok.injEq, Prod.mk.injEq] at h
          rw [← h.2]
        · rw [if_neg hc] at h
          have hsuf := scanRun_snd_suffix ['\x7b', '\x7d'] (c :: p0)
          cases hsc : (scanRun ['\x7b', '\x7d'] (c :: p0)).2 with
          | nil =>
            simp only [hsc, Except.ok.injEq, Prod.mk.injEq] at h
            rw [← h.2]
            exact List.nil_suffix
          | cons c1 p2 =>
            simp only [hsc] at h
            by_cases hc1 : c1 = '\x7b'
            · rw [if_pos hc1] at h
              exact (ihD _ p2 f r h).trans
                ((List.suffix_cons c1 p2).trans (hsc ▸ hsuf))
            · rw [if_neg hc1] at h
              simp only [Except.ok.injEq, Prod.mk.injEq] at h
              rw [← h.2]
              exact hsc ▸ hsuf
    · intro acc p f r h
      simp only [parseField] at h
      have hsuf := scanRun_snd_suffix [':', '\x7d'] p
      cases hns : (scanRun [':', '\x7d'] p).2 with
      | nil => simp only [hns] at h; simp at h
      | cons c p3 =>
        simp only [hns] at h
        by_cases hc : c = ':'
        · rw [if_pos hc] at h
          cases hps : parseSubs fuel [] (scanRun [':', '\x7d'] p3).2 with
          | error e => simp only [hps] at h; simp at h
          | ok sr =>
            simp only [hps] at h
            obtain ⟨subs, r4⟩ := sr
            cases r4 with
            | nil => simp at h
            | cons c4 p5 =>
              dsimp only at h
              by_cases hc4 : c4 = '\x7d'
              · rw [if_pos hc4] at h
                have h5 := ihF _ false p5 f r h
                have hr4 : (c4 :: p5) <:+ (scanRun [':', '\x7d'] p3).2 :=
                  ihS [] _ subs (c4 :: p5) hps
                have hos : (scanRun [':', '\x7d'] p3).2 <:+ p3 := scanRun_snd_suffix _ p3
                exact h5.trans ((List.suffix_cons c4 p5).trans (hr4.trans (hos.trans
                  ((List.suffix_cons c p3).trans (hns ▸ hsuf)))))
              · rw [if_neg hc4] at h; simp at h
        · by_cases hc2 : c = '\x7d'
          · rw [if_neg hc, if_pos hc2] at h
            exact (ihF _ false p3 f r h).trans
              ((List.suffix_cons c p3).trans (hns ▸ hsuf))
          · rw [if_neg hc, if_neg hc2] at h; simp at h
    · intro subs p ss r h
      cases p with
      | nil =>
        simp only [parseSubs, Except.ok.injEq, Prod.mk.injEq] at h
        rw [← h.2]
      | cons c p1 =>
        simp only [parseSubs] at h
        by_cases hc : c = ':'
        · rw [if_pos hc] at h
          cases hpf : parseFormat fuel [] false p1 with
          | error e => simp only [hpf] at h; simp at h
          | ok fr =>
            simp only [hpf] at h
            have h1 := ihS (subs ++ [fr.1]) fr.2 ss r h
            have h2 := ihF [] false p1 fr.1 fr.2 (by rw [hpf])
            exact h1.trans (h2.trans (List.suffix_cons c p1))
        · rw [if_neg hc] at h
          simp only [Except.ok.injEq, Prod.mk.injEq] at h
          rw [← h.2]

theorem parse_mono :
    ∀ fuel fuel2 : Nat, fuel ≤ fuel2 →
      (∀ acc ls p x, parseFormat fuel acc ls p = .ok x → parseFormat fuel2 acc ls p = .ok x) ∧
      (∀ acc p x, parseField fuel acc p = .ok x → parseField fuel2 acc p = .ok x) ∧
      (∀ subs p x, parseSubs fuel subs p = .ok x → parseSubs fuel2 subs p = .ok x) := by
  intro fuel
  induction fuel with
  | zero =>
    intro fuel2 hf2
    refine ⟨?_, ?_, ?_⟩
    · intro acc ls p x h; simp [parseFormat] at h
    · intro acc p x h; simp [parseField] at h
    · intro subs p x h; simp [parseSubs] at h
  | succ fuel ih =>
    intro fuel2 hf2
    cases fuel2 with
    | zero => omega
    | succ fuel2 =>
      obtain ⟨ihF, ihD, ihS⟩ := ih fuel2 (by omega)
      refine ⟨?_, ?_, ?_⟩
      · intro acc ls p x h
        cases p with
        | nil => simp only [parseFormat] at h ⊢; exact h
        | cons c p0 =>
          simp only [parseFormat] at h ⊢
          by_cases hc : c = '}'
          · rw [if_pos hc] at h ⊢; exact h
          · rw [if_neg hc] at h ⊢
            cases hsc : (scanRun ['\x7b', '\x7d'] (c :: p0)).2 with
            | nil => simp only [hsc] at h ⊢; exact h
            | cons c1 p2 =>
              simp only [hsc] at h ⊢
              by_cases hc1 : c1 = '\x7b'
              · rw [if_pos hc1] at h ⊢; exact ihD _ _ _ h
              · rw [if_neg hc1] at h ⊢; exact h
      · intro acc p x h
        simp only [parseField] at h ⊢
        cases hns : (scanRun [':', '\x7d'] p).2 with
        | nil => simp only [hns] at h; simp at h
        | cons c p3 =>
          simp only [hns] at h ⊢
          by_cases hc : c = ':'
          · rw [if_pos hc] at h ⊢
            cases hps : parseSubs fuel [] (scanRun [':', '\x7d'] p3).2 with
            | error e => simp only [hps] at h; simp at h
            | ok sr =>
              simp only [hps] at h
              have hps2 := ihS [] _ sr hps
              simp only [hps2]
              obtain ⟨subs, r4⟩ := sr
              cases r4 with
              | nil => simp at h
              | cons c4 p5 =>
                dsimp only at h ⊢
                by_cases hc4 : c4 = '\x7d'
                · rw [if_pos hc4] at h ⊢; exact ihF _ _ _ _ h
                · rw [if_neg hc4] at h; simp at h
          · by_cases hc2 : c = '\x7d'
            · rw [if_neg hc, if_pos hc2] at h ⊢; exact ihF _ _ _ _ h
            · rw [if_neg hc, if_neg hc2] at h; simp at h
      · intro subs p x h
        cases p with
        | nil => simp only [parseSubs] at h ⊢; exact h
        | cons c p1 =>
          simp only [parseSubs] at h ⊢
          by_cases hc : c = ':'
          · rw [if_pos hc] at h ⊢
            cases hpf : parseFormat fuel [] false p1 with
            | error e => simp only [hpf] at h; simp at h
            | ok fr =>
              simp only [hpf] at h
              have hpf2 := ihF [] false p1 fr hpf
              simp only [hpf2]
              exact ihS _ _ _ h
          · rw [if_neg hc] at h ⊢; exact h



theorem parse_extend (t : List Char) :
    ∀ fuel : Nat,
      (∀ acc ls p f r, parseFormat fuel acc ls p = .ok (f, r) →
        (r = [] → p.getLast? ≠ some '~') →
        parseFormat fuel acc ls (p ++ '\x7d' :: t) = .ok (f, r ++ '\x7d' :: t)) ∧
      (∀ acc p f r, parseField fuel acc p = .ok (f, r) →
        (r = [] → p.getLast? ≠ some '~') →
        parseField fuel acc (p ++ '\x7d' :: t) = .ok (f, r ++ '\x7d' :: t)) ∧
      (∀ subs p ss r, parseSubs fuel subs p = .ok (ss, r) → r ≠ [] →
        parseSubs fuel subs (p ++ '\x7d' :: t) = .ok (ss, r ++ '\x7d' :: t)) := by
  intro fuel
  induction fuel with
  | zero =>
    refine ⟨?_, ?_, ?_⟩
    · intro acc ls p f r h; simp [parseFormat] at h
    · intro acc p f r h; simp [parseField] at h
    · intro subs p ss r h; simp [parseSubs] at h
  | succ fuel ih =>
    obtain ⟨ihF, ihD, ihS⟩ := ih
    refine ⟨?_, ?_, ?_⟩
    · intro acc ls p f r h hlast
      cases p with
      | nil =>
        simp only [parseFormat, Except.ok.injEq, Prod.mk.injEq] at h
        obtain ⟨h1, h2⟩ := h
        subst h1
        subst h2
        simp only [List.nil_append, parseFormat]
        simp
      | cons c p0 =>
        simp only [parseFormat] at h
        simp only [List.cons_append, parseFormat]
        by_cases hc : c = '\x7d'
        · rw [if_pos hc] at h
          simp only [Except.ok.injEq, Prod.mk.injEq] at h
          obtain ⟨h1, h2⟩ := h
          subst h1
          rw [if_pos hc, ← h2]
          simp
        · rw [if_neg hc] at h
          rw [if_neg hc]
          cases hsc : (scanRun ['\x7b', '\x7d'] (c :: p0)).2 with
          | nil =>
            simp only [hsc] at h
            simp only [Except.ok.injEq, Prod.mk.injEq] at h
            obtain ⟨h1, h2⟩ := h
            subst h2
            have hext := scanRun_append_stop ['\x7b', '\x7d'] '\x7d' t (by simp) (by decide)
              (c :: p0) hsc (hlast rfl)
            rw [List.cons_append] at hext
            simp only [hext]
            rw [if_neg (by decide : ¬('\x7d' : Char) = '\x7b'), ← h1]
            simp
          | cons c1 p2 =>
            simp only [hsc] at h
            have hne : (scanRun ['\x7b', '\x7d'] (c :: p0)).2 ≠ [] := by
              rw [hsc]; simp
            have hext := scanRun_append_of_ne ['\x7b', '\x7d'] ('\x7d' :: t) (by decide)
              (c :: p0) hne
            rw [hsc, List.cons_append] at hext
            rw [List.cons_append] at hext
            simp only [hext, List.cons_append]
            by_cases hc1 : c1 = '\x7b'
            · rw [if_pos hc1] at h
              rw [if_pos hc1]
              have hp2suf : p2 <:+ c :: p0 := by
                have := scanRun_snd_suffix ['\x7b', '\x7d'] (c :: p0)
                rw [hsc] at this
                exact (List.suffix_cons c1 p2).trans this
              refine ihD _ p2 f r h ?_
              intro hr
              cases hp2 : p2 with
              | nil => simp
              | cons a b =>
                rw [← hp2, getLast?_of_suffix hp2suf (by rw [hp2]; simp)]
                exact hlast hr
            · rw [if_neg hc1] at h
              rw [if_neg hc1]
              simp only [Except.ok.injEq, Prod.mk.injEq] at h
              obtain ⟨h1, h2⟩ := h
              rw [← h1, ← h2]
              simp
    · intro acc p f r h hlast
      simp only [parseField] at h
      cases hns : (scanRun [':', '\x7d'] p).2 with
      | nil => simp only [hns] at h; simp at h
      | cons c p3 =>
        simp only [hns] at h
        have hnsne : (scanRun [':', '\x7d'] p).2 ≠ [] := by rw [hns]; simp
        have hext := scanRun_append_of_ne [':', '\x7d'] ('\x7d' :: t) (by decide) p hnsne
        rw [hns, List.cons_append] at hext
        simp only [parseField, hext, List.cons_append]
        have hp3suf : p3 <:+ p := by
          have := scanRun_snd_suffix [':', '\x7d'] p
          rw [hns] at this
          exact (List.suffix_cons c p3).trans this
        by_cases hc : c = ':'
        · rw [if_pos hc] at h
          rw [if_pos hc]
          cases hps : parseSubs fuel [] (scanRun [':', '\x7d'] p3).2 with
          | error e => simp only [hps] at h; simp at h
          | ok sr =>
            simp only [hps] at h
            obtain ⟨subs, r4⟩ := sr
            cases r4 with
            | nil => simp at h
            | cons c4 p5 =>
              dsimp only at h
              by_cases hc4 : c4 = '\x7d'
              · rw [if_pos hc4] at h
                have hosne : (scanRun [':', '\x7d'] p3).2 ≠ [] := by
                  intro h0
                  rw [h0] at hps
                  cases fuel with
                  | zero => simp [parseSubs] at hps
                  | succ fuel2 =>
                    simp only [parseSubs, Except.ok.injEq, Prod.mk.injEq] at hps
                    exact absurd hps.2 (by simp)
                have hoext := scanRun_append_of_ne [':', '\x7d'] ('\x7d' :: t) (by decide) p3 hosne
                simp only [hoext]
                have hpsext := ihS [] ((scanRun [':', '\x7d'] p3).2) subs (c4 :: p5) hps (by simp)
                simp only [hpsext, List.cons_append]
                try dsimp only
                rw [if_pos hc4]
                have hp5suf : p5 <:+ p := by
                  have h1 : (c4 :: p5) <:+ (scanRun [':', '\x7d'] p3).2 :=
                    (parse_rest_suffix fuel).2.2 [] _ subs (c4 :: p5) hps
                  have h2 : (scanRun [':', '\x7d'] p3).2 <:+ p3 := scanRun_snd_suffix _ p3
                  exact ((List.suffix_cons c4 p5).trans (h1.trans (h2.trans hp3suf)))
                refine ihF _ false p5 f r h ?_
                intro hr
                cases hp5 : p5 with
                | nil => simp
                | cons a b =>
                  rw [← hp5, getLast?_of_suffix hp5suf (by rw [hp5]; simp)]
                  exact hlast hr
              · rw [if_neg hc4] at h; simp at h
        · by_cases hc2 : c = '\x7d'
          · rw [if_neg hc, if_pos hc2] at h
            rw [if_neg hc, if_pos hc2]
            refine ihF _ false p3 f r h ?_
            intro hr
            cases hp3 : p3 with
            | nil => simp
            | cons a b =>
              rw [← hp3, getLast?_of_suffix hp3suf (by rw [hp3]; simp)]
              exact hlast hr
          · rw [if_neg hc, if_neg hc2] at h; simp at h
    · intro subs p ss r h hrne
      cases p with
      | nil =>
        simp only [parseSubs, Except.ok.injEq, Prod.mk.injEq] at h
        exact absurd (h.2.symm) hrne
      | cons c p1 =>
        simp only [parseSubs] at h
        simp only [List.cons_append, parseSubs]
        by_cases hc : c = ':'
        · rw [if_pos hc] at h
          rw [if_pos hc]
          cases hpf : parseFormat fuel [] false p1 with
          | error e => simp only [hpf] at h; simp at h
          | ok fr =>
            simp only [hpf] at h
            have hfrne : fr.2 ≠ [] := by
              intro h0
              rw [h0] at h
              cases fuel with
              | zero => simp [parseSubs] at h
              | succ fuel2 =>
                simp only [parseSubs, Except.ok.injEq, Prod.mk.injEq] at h
                exact hrne h.2.symm
            have hpfext := ihF [] false p1 fr.1 fr.2 (by rw [hpf]) (fun h0 => absurd h0 hfrne)
            simp only [hpfext]
            exact ihS (subs ++ [fr.1]) fr.2 ss r h hrne
        · rw [if_neg hc] at h
          rw [if_neg hc]
          simp only [Except.ok.injEq, Prod.mk.injEq] at h
          obtain ⟨h1, h2⟩ := h
          rw [← h1, ← h2]
          simp

/-- Claim C10: a template whose top-level parse consumes a prefix `s`
completely and then meets an unescaped `\x7d` parses successfully: the
scan stops at that `\x7d` and the format built so far is returned, and
the `\x7d` together with everything after it is silently discarded, so
`fmt (s ++ "\x7d" ++ t)` equals `fmt s`; in particular `"a\x7db"`
renders with an empty dictionary to `"a"`. -/
theorem c10_stray_brace :
    (∀ (s t : String) (f : Format),
       parseFormat (s.data.length + 1) [] false s.data = .ok (f, []) →
       s.data.getLast? ≠ some '~' →
       fmt (s ++ ("\x7d") ++ t) = .ok f ∧ fmt s = .ok f)
    ∧ render ("a\x7db") [] = .ok ("a") := by
  refine ⟨?_, rfl⟩
  intro s t f h hlast
  have hdata : (s ++ ("\x7d") ++ t).data = s.data ++ '\x7d' :: t.data := by
    simp [String.data_append]
  constructor
  · have hext := (parse_extend t.data (s.data.length + 1)).1 [] false s.data f [] h
      (fun _ => hlast)
    have hmono := (parse_mono (s.data.length + 1)
      ((s ++ ("\x7d") ++ t).data.length + 1)
      (by rw [hdata]; simp)).1 [] false (s.data ++ '\x7d' :: t.data) _ hext
    rw [hdata] at hmono
    unfold fmt
    rw [hdata, hmono]
  · unfold fmt
    rw [h]

/-- Witness for C10 with prefix `"a"` and tail `"b"`. -/
theorem c10_witness :
    (parseFormat ((("a") : String).data.length + 1) [] false (("a") : String).data =
       .ok ([Field.mk ("") ("a") ([])], []) ∧
     (("a") : String).data.getLast? ≠ some '~') ∧
    (fmt (("a") ++ ("\x7d") ++ ("b")) = .ok [Field.mk ("") ("a") ([])] ∧
     fmt ("a") = .ok [Field.mk ("") ("a") ([])]) :=
  ⟨⟨rfl, by decide⟩,
   c10_stray_brace.1 ("a") ("b") [Field.mk ("") ("a") ([])] rfl (by decide)⟩



theorem parse_unterminated :
    ∀ fuel : Nat,
      (∀ acc ls p, p.length < fuel → '\x7d' ∉ p →
        ((scanRun ['\x7b', '\x7d'] p).2 ≠ [] →
           parseFormat fuel acc ls p = .error .unterminatedField) ∧
        ((scanRun ['\x7b', '\x7d'] p).2 = [] →
           ∃ f, parseFormat fuel acc ls p = .ok (f, []))) ∧
      (∀ acc p, p.length < fuel → '\x7d' ∉ p →
        parseField fuel acc p = .error .unterminatedField) ∧
      (∀ subs p, p.length < fuel → '\x7d' ∉ p → (p = [] ∨ p.head? = some ':') →
        (parseSubs fuel subs p = .error .unterminatedField ∨
         ∃ ss, parseSubs fuel subs p = .ok (ss, []))) := by
  intro fuel
  induction fuel with
  | zero =>
    refine ⟨?_, ?_, ?_⟩
    · intro acc ls p hl; omega
    · intro acc p hl; omega
    · intro subs p hl; omega
  | succ fuel ih =>
    obtain ⟨ihF, ihD, ihS⟩ := ih
    refine ⟨?_, ?_, ?_⟩
    · intro acc ls p hl hnb
      cases p with
      | nil =>
        constructor
        · intro habs; exact absurd (rfl : (scanRun ['\x7b', '\x7d'] ([] : List Char)).2 = []) habs
        · intro _; exact ⟨acc, rfl⟩
      | cons c p0 =>
        have hc : ¬ c = '\x7d' := fun he => hnb (he ▸ List.mem_cons_self c p0)
        constructor
        · intro hscne
          cases hsc : (scanRun ['\x7b', '\x7d'] (c :: p0)).2 with
          | nil => exact absurd hsc (hsc ▸ hscne)
          | cons c1 p2 =>
            have hc1mem : c1 ∈ ['\x7b', '\x7d'] := by
              rcases scanRun_snd_cases ['\x7b', '\x7d'] (c :: p0) with h0 | ⟨c2, r2, he, hm⟩
              · rw [h0] at hsc; cases hsc
              · rw [he] at hsc
                cases hsc
                exact hm
            have hc1in : c1 ∈ c :: p0 := by
              have := scanRun_snd_suffix ['\x7b', '\x7d'] (c :: p0)
              rw [hsc] at this
              exact this.subset (List.mem_cons_self c1 p2)
            have hc1 : c1 = '\x7b' := by
              have hc1or : c1 = '\x7b' ∨ c1 = '\x7d' := by simpa using hc1mem
              rcases hc1or with h | h
              · exact h
              · exact absurd (h ▸ hc1in) hnb
            simp only [parseFormat, hsc]
            rw [if_neg hc, if_pos hc1]
            have hp2sub : p2 <:+ c :: p0 := by
              have := scanRun_snd_suffix ['\x7b', '\x7d'] (c :: p0)
              rw [hsc] at this
              exact (List.suffix_cons c1 p2).trans this
            have hlen2 : (c1 :: p2).length ≤ (c :: p0).length := by
              have hsuf2 := scanRun_snd_suffix ['\x7b', '\x7d'] (c :: p0)
              rw [hsc] at hsuf2
              exact hsuf2.length_le
            refine ihD _ p2 ?_ (fun hm => hnb (hp2sub.subset hm))
            simp only [List.length_cons] at hl hlen2
            omega
        · intro hsc
          refine ⟨if (scanRun ['\x7b', '\x7d'] (c :: p0)).1.isEmpty then acc
                  else pushStatic acc ls (scanRun ['\x7b', '\x7d'] (c :: p0)).1, ?_⟩
          simp only [parseFormat, hsc]
          rw [if_neg hc]
    · intro acc p hl hnb
      cases hns : (scanRun [':', '\x7d'] p).2 with
      | nil => simp only [parseField, hns]
      | cons c p3 =>
        have hcmem : c ∈ [':', '\x7d'] := by
          rcases scanRun_snd_cases [':', '\x7d'] p with h0 | ⟨c2, r2, he, hm⟩
          · rw [h0] at hns; cases hns
          · rw [he] at hns
            cases hns
            exact hm
        have hsufp : (c :: p3) <:+ p := by
          have := scanRun_snd_suffix [':', '\x7d'] p
          rw [hns] at this
          exact this
        have hcin : c ∈ p := hsufp.subset (List.mem_cons_self c p3)
        have hc : c = ':' := by
          have hcor : c = ':' ∨ c = '\x7d' := by simpa using hcmem
          rcases hcor with h | h
          · exact h
          · exact absurd (h ▸ hcin) hnb
        simp only [parseField, hns]
        rw [if_pos hc]
        have hp3sub : p3 <:+ p := (List.suffix_cons c p3).trans hsufp
        have hossub : (scanRun [':', '\x7d'] p3).2 <:+ p :=
          (scanRun_snd_suffix [':', '\x7d'] p3).trans hp3sub
        have hoslen : (scanRun [':', '\x7d'] p3).2.length < fuel := by
          have h1 := (scanRun_snd_suffix [':', '\x7d'] p3).length_le
          have h2 : (c :: p3).length ≤ p.length := hsufp.length_le
          simp only [List.length_cons] at h2
          omega
        have hoshead : (scanRun [':', '\x7d'] p3).2 = [] ∨
            (scanRun [':', '\x7d'] p3).2.head? = some ':' := by
          rcases scanRun_snd_cases [':', '\x7d'] p3 with h0 | ⟨c2, r2, he, hm⟩
          · exact Or.inl h0
          · right
            rw [he]
            have hmor : c2 = ':' ∨ c2 = '\x7d' := by simpa using hm
            rcases hmor with h | h
            · rw [h]; rfl
            · have hc2in : c2 ∈ p := hossub.subset (he ▸ List.mem_cons_self c2 r2)
              exact absurd (h ▸ hc2in) hnb
        rcases ihS [] (scanRun [':', '\x7d'] p3).2 hoslen
            (fun hm => hnb (hossub.subset hm)) hoshead with herr | ⟨ss, hok⟩
        · rw [herr]
        · rw [hok]
    · intro subs p hl hnb hhead
      cases p with
      | nil =>
        right
        refine ⟨subs, ?_⟩
        simp [parseSubs]
      | cons c p1 =>
        have hc : c = ':' := by
          rcases hhead with h | h
          · cases h
          · simpa using h
        simp only [parseSubs]
        rw [if_pos hc]
        have hp1len : p1.length < fuel := by
          simp only [List.length_cons] at hl
          omega
        have hp1nb : '\x7d' ∉ p1 := fun hm => hnb (List.mem_cons_of_mem c hm)
        by_cases hse : (scanRun ['\x7b', '\x7d'] p1).2 = []
        · obtain ⟨f, hok⟩ := (ihF [] false p1 hp1len hp1nb).2 hse
          rw [hok]
          right
          cases fuel with
          | zero => omega
          | succ fuel2 => exact ⟨subs ++ [f], rfl⟩
        · have herr := (ihF [] false p1 hp1len hp1nb).1 hse
          rw [herr]
          left
          rfl

/-- Claim C8: a template with no closing brace anywhere in which the
static scan stops (necessarily at an unescaped opening brace, so a
dynamic field is opened and never closed) makes `fmt` fail with
`unterminatedField`; parsing aborts with the error and no `Format` is
produced (`fmt` returns either a complete tree or an error, never a
prefix); in particular `fmt "\x7by"` fails with `unterminatedField`. -/
theorem c8_unterminated :
    (∀ s : String, '\x7d' ∉ s.data → (scanRun ['\x7b', '\x7d'] s.data).2 ≠ [] →
       fmt s = .error .unterminatedField)
    ∧ fmt ("\x7by") = .error .unterminatedField := by
  refine ⟨?_, rfl⟩
  intro s hnb hscan
  have h := ((parse_unterminated (s.data.length + 1)).1 [] false s.data
    (by omega) hnb).1 hscan
  unfold fmt
  rw [h]

/-- Witness for C8 at the template `"\x7by"`. -/
theorem c8_witness :
    ('\x7d' ∉ (("\x7by") : String).data ∧
     (scanRun ['\x7b', '\x7d'] (("\x7by") : String).data).2 ≠ []) ∧
    fmt ("\x7by") = .error .unterminatedField :=
  ⟨⟨by decide, by decide⟩,
   c8_unterminated.1 ("\x7by") (by decide) (by decide)⟩



theorem hasPair_of_suffix {a b : Char} :
    ∀ {p q : List Char}, q <:+ p → hasPair a b q = true → hasPair a b p = true := by
  intro p
  induction p with
  | nil =>
    intro q hs hq
    rw [List.suffix_nil.mp hs] at hq
    simp [hasPair] at hq
  | cons x p1 ih =>
    intro q hs hq
    rcases List.suffix_cons_iff.mp hs with h | h
    · rw [← h]; exact hq
    · have h1 := ih h hq
      cases p1 with
      | nil => simp [hasPair] at h1
      | cons y rest =>
        rw [hasPair]
        rw [h1]
        simp

theorem good_suffix {p q : List Char} (hs : q <:+ p) (hg : GoodTemplate p) :
    GoodTemplate q := by
  obtain ⟨h2, h3⟩ := hg
  refine ⟨?_, ?_⟩
  · cases hq : hasPair '\x7b' '\x7d' q with
    | false => rfl
    | true => rw [hasPair_of_suffix hs hq] at h2; cases h2
  · cases hq : hasPair '\x7b' ':' q with
    | false => rfl
    | true => rw [hasPair_of_suffix hs hq] at h3; cases h3

theorem fmtOk_append :
    ∀ (acc : List Field) (f : Field), FmtOk acc → FieldOk f →
      (f.name = "" → ∀ f0, acc.getLast? = some f0 → f0.name ≠ "") →
      FmtOk (acc ++ [f]) := by
  intro acc
  induction acc with
  | nil => intro f _ hf _; exact FmtOk.single f hf
  | cons g acc2 ih =>
    intro f hacc hf hlast
    cases acc2 with
    | nil =>
      have hg : FieldOk g := by
        cases hacc with
        | single _ h => exact h
      refine FmtOk.cons g f [] hg ?_ (FmtOk.single f hf)
      rintro ⟨hgn, hfn⟩
      exact (hlast hfn g (by simp)) hgn
    | cons g2 rest =>
      have hinv : FieldOk g ∧ ¬(g.name = "" ∧ g2.name = "") ∧ FmtOk (g2 :: rest) := by
        cases hacc with
        | cons _ _ _ h1 h2 h3 => exact ⟨h1, h2, h3⟩
      obtain ⟨hg, hne, htail⟩ := hinv
      have hstep := ih f htail hf (by
        intro hfn f0 h0
        refine hlast hfn f0 ?_
        rw [List.getLast?_cons_cons]
        exact h0)
      rw [List.cons_append]
      have : (g2 :: rest) ++ [f] = g2 :: (rest ++ [f]) := by simp
      rw [this] at hstep
      exact FmtOk.cons g g2 (rest ++ [f]) hg hne hstep

theorem fieldOk_subs {f : Field} (h : FieldOk f) : ∀ g, g ∈ f.subformats → FmtOk g := by
  cases h with
  | intro n o subs hs => exact hs

theorem fmtOk_addToLast : ∀ (acc : List Field) (s : String), FmtOk acc →
    FmtOk (addToLast acc s) := by
  intro acc
  induction acc with
  | nil => intro s _; exact FmtOk.nil
  | cons g acc2 ih =>
    intro s hacc
    cases acc2 with
    | nil =>
      have hg : FieldOk g := by
        cases hacc with
        | single _ h => exact h
      obtain ⟨n, o, subs⟩ := g
      rw [addToLast]
      exact FmtOk.single _ (FieldOk.intro n (o ++ s) subs (fieldOk_subs hg))
    | cons g2 rest =>
      have hinv : FieldOk g ∧ ¬(g.name = "" ∧ g2.name = "") ∧ FmtOk (g2 :: rest) := by
        cases hacc with
        | cons _ _ _ h1 h2 h3 => exact ⟨h1, h2, h3⟩
      obtain ⟨hg, hne, htail⟩ := hinv
      have hstep := ih s htail
      have hshape : ∃ g3 rest3, addToLast (g2 :: rest) s = g3 :: rest3 ∧ g3.name = g2.name := by
        cases rest with
        | nil =>
          obtain ⟨n, o, subs⟩ := g2
          exact ⟨_, _, rfl, rfl⟩
        | cons g4 rest4 => exact ⟨g2, addToLast (g4 :: rest4) s, by rw [addToLast], rfl⟩
      obtain ⟨g3, rest3, heq, hname⟩ := hshape
      rw [addToLast, heq]
      rw [heq] at hstep
      refine FmtOk.cons g g3 rest3 hg ?_ hstep
      rw [hname]
      exact hne

theorem parse_noconsec :
    ∀ fuel : Nat,
      (∀ acc ls p f r, parseFormat fuel acc ls p = .ok (f, r) →
        GoodTemplate p → FmtOk acc →
        (ls = false → ∀ f0, acc.getLast? = some f0 → f0.name ≠ "") →
        FmtOk f) ∧
      (∀ acc p f r, parseField fuel acc p = .ok (f, r) →
        GoodTemplate p → FmtOk acc →
        (∀ c2 p2, p = c2 :: p2 → c2 ≠ ':' ∧ c2 ≠ '\x7d') →
        FmtOk f) ∧
      (∀ subs p ss r, parseSubs fuel subs p = .ok (ss, r) →
        GoodTemplate p → (∀ g, g ∈ subs → FmtOk g) →
        (∀ g, g ∈ ss → FmtOk g)) := by
  intro fuel
  induction fuel with
  | zero =>
    refine ⟨?_, ?_, ?_⟩
    · intro acc ls p f r h; simp [parseFormat] at h
    · intro acc p f r h; simp [parseField] at h
    · intro subs p ss r h; simp [parseSubs] at h
  | succ fuel ih =>
    obtain ⟨ihF, ihD, ihS⟩ := ih
    refine ⟨?_, ?_, ?_⟩
    · intro acc ls p f r h hgood hacc hls
      cases p with
      | nil =>
        simp only [parseFormat, Except.ok.injEq, Prod.mk.injEq] at h
        rw [← h.1]
        exact hacc
      | cons c p0 =>
        simp only [parseFormat] at h
        by_cases hc : c = '\x7d'
        · rw [if_pos hc] at h
          simp only [Except.ok.injEq, Prod.mk.injEq] at h
          rw [← h.1]
          exact hacc
        · rw [if_neg hc] at h
          have hacc1 : FmtOk (if (scanRun ['\x7b', '\x7d'] (c :: p0)).1.isEmpty then acc
              else pushStatic acc ls (scanRun ['\x7b', '\x7d'] (c :: p0)).1) := by
            by_cases hemp : (scanRun ['\x7b', '\x7d'] (c :: p0)).1.isEmpty
            · rw [if_pos hemp]; exact hacc
            · rw [if_neg hemp]
              rw [pushStatic]
              cases hlsv : ls with
              | true => rw [if_pos rfl]; exact fmtOk_addToLast acc _ hacc
              | false =>
                rw [if_neg (by simp)]
                refine fmtOk_append acc _ hacc ?_ ?_
                · exact FieldOk.intro _ _ _ (by intro g hg; cases hg)
                · intro _
                  exact hls hlsv
          cases hsc : (scanRun ['\x7b', '\x7d'] (c :: p0)).2 with
          | nil =>
            simp only [hsc] at h
            simp only [Except.ok.injEq, Prod.mk.injEq] at h
            rw [← h.1]
            exact hacc1
          | cons c1 p2 =>
            simp only [hsc] at h
            have hsufsc : (c1 :: p2) <:+ (c :: p0) := by
              have hs0 := scanRun_snd_suffix ['\x7b', '\x7d'] (c :: p0)
              rw [hsc] at hs0
              exact hs0
            by_cases hc1 : c1 = '\x7b'
            · rw [if_pos hc1] at h
              have hgood2 : GoodTemplate p2 :=
                good_suffix ((List.suffix_cons c1 p2).trans hsufsc) hgood
              refine ihD _ p2 f r h hgood2 hacc1 ?_
              intro c2 p2b hp2
              have hgoodsc : GoodTemplate (c1 :: p2) := good_suffix hsufsc hgood
              obtain ⟨hbr, hcl⟩ := hgoodsc
              rw [hc1, hp2] at hbr hcl
              refine ⟨?_, ?_⟩
              · intro he
                rw [hasPair, he] at hcl
                simp at hcl
              · intro he
                rw [hasPair, he] at hbr
                simp at hbr
            · rw [if_neg hc1] at h
              simp only [Except.ok.injEq, Prod.mk.injEq] at h
              rw [← h.1]
              exact hacc1
    · intro acc p f r h hgood hacc hhead
      simp only [parseField] at h
      cases hns : (scanRun [':', '\x7d'] p).2 with
      | nil => simp only [hns] at h; simp at h
      | cons c p3 =>
        simp only [hns] at h
        have hnm : ¬ (String.mk (scanRun [':', '\x7d'] p).1 = "") := by
          cases hp : p with
          | nil => rw [hp] at hns; simp [scanRun] at hns
          | cons c2 p2 =>
            obtain ⟨hn1, hn2⟩ := hhead c2 p2 hp
            intro he
            exact scanRun_fst_ne_nil [':', '\x7d'] p2 (by simp [hn1, hn2])
              (congrArg String.data he)
        have hsufns : (c :: p3) <:+ p := by
          have hs0 := scanRun_snd_suffix [':', '\x7d'] p
          rw [hns] at hs0
          exact hs0
        have hgood3 : GoodTemplate p3 :=
          good_suffix ((List.suffix_cons c p3).trans hsufns) hgood
        by_cases hc : c = ':'
        · rw [if_pos hc] at h
          cases hps : parseSubs fuel [] (scanRun [':', '\x7d'] p3).2 with
          | error e => simp only [hps] at h; simp at h
          | ok sr =>
            simp only [hps] at h
            obtain ⟨subs, r4⟩ := sr
            cases r4 with
            | nil => simp at h
            | cons c4 p5 =>
              dsimp only at h
              by_cases hc4 : c4 = '\x7d'
              · rw [if_pos hc4] at h
                have hgoodos : GoodTemplate (scanRun [':', '\x7d'] p3).2 :=
                  good_suffix (scanRun_snd_suffix [':', '\x7d'] p3) hgood3
                have hsubs : ∀ g, g ∈ subs → FmtOk g :=
                  ihS [] _ subs (c4 :: p5) hps hgoodos (by intro g hg; cases hg)
                have hsufr4 : (c4 :: p5) <:+ p :=
                  ((parse_rest_suffix fuel).2.2 [] _ subs (c4 :: p5) hps).trans
                    ((scanRun_snd_suffix [':', '\x7d'] p3).trans
                      ((List.suffix_cons c p3).trans hsufns))
                have hgood5 : GoodTemplate p5 :=
                  good_suffix ((List.suffix_cons c4 p5).trans hsufr4) hgood
                refine ihF _ false p5 f r h hgood5 ?_ ?_
                · refine fmtOk_append acc _ hacc ?_ ?_
                  · exact FieldOk.intro _ _ _ hsubs
                  · intro hemp
                    exact absurd hemp hnm
                · intro _ f0 h0
                  rw [List.getLast?_concat] at h0
                  cases h0
                  exact hnm
              · rw [if_neg hc4] at h; simp at h
        · by_cases hc2 : c = '\x7d'
          · rw [if_neg hc, if_pos hc2] at h
            refine ihF _ false p3 f r h hgood3 ?_ ?_
            · refine fmtOk_append acc _ hacc ?_ ?_
              · exact FieldOk.intro _ _ _ (by intro g hg; cases hg)
              · intro hemp
                exact absurd hemp hnm
            · intro _ f0 h0
              rw [List.getLast?_concat] at h0
              cases h0
              exact hnm
          · rw [if_neg hc, if_neg hc2] at h; simp at h
    · intro subs p ss r h hgood hsubs
      cases p with
      | nil =>
        simp only [parseSubs, Except.ok.injEq, Prod.mk.injEq] at h
        rw [← h.1]
        exact hsubs
      | cons c p1 =>
        simp only [parseSubs] at h
        by_cases hc : c = ':'
        · rw [if_pos hc] at h
          cases hpf : parseFormat fuel [] false p1 with
          | error e => simp only [hpf] at h; simp at h
          | ok fr =>
            simp only [hpf] at h
            have hgood1 : GoodTemplate p1 := good_suffix (List.suffix_cons c p1) hgood
            have hfr : FmtOk fr.1 :=
              ihF [] false p1 fr.1 fr.2 (by rw [hpf]) hgood1 FmtOk.nil
                (by intro _ f0 h0; cases h0)
            have hgoodr : GoodTemplate fr.2 :=
              good_suffix (((parse_rest_suffix fuel).1 [] false p1 fr.1 fr.2
                (by rw [hpf])).trans (List.suffix_cons c p1)) hgood
            refine ihS (subs ++ [fr.1]) fr.2 ss r h hgoodr ?_
            intro g hg
            rcases List.mem_append.mp hg with hg1 | hg1
            · exact hsubs g hg1
            · rw [List.mem_singleton.mp hg1]
              exact hfr
        · rw [if_neg hc] at h
          simp only [Except.ok.injEq, Prod.mk.injEq] at h
          rw [← h.1]
          exact hsubs

/-- Counterexample to claim C5: the template `"a\x7b\x7db"` parses
successfully into three consecutive fields with empty name (the static
text `a`, the empty-name placeholder, and the static text `b`), so a
parsed `Format` can contain two consecutive static fields. -/
theorem c5_counterexample :
    fmt ("a\x7b\x7db") =
      .ok [Field.mk ("") ("a") ([]), Field.mk ("") ("") ([]), Field.mk ("") ("b") ([])]
    ∧ ¬ FmtOk [Field.mk ("") ("a") ([]), Field.mk ("") ("") ([]), Field.mk ("") ("b") ([])] := by
  refine ⟨rfl, ?_⟩
  intro h
  cases h with
  | cons _ _ _ _ hne _ => exact hne ⟨rfl, rfl⟩

/-- Claim C5 as amended: for every template that contains no
empty-name placeholder opener (no literal occurrence of `\x7b`
immediately followed by `\x7d` or `:`), a successful parse yields a
`Format` with no two consecutive empty-name fields at any nesting
level, every subformat included: adjacent static runs are coalesced
during parsing, and under this condition every placeholder contributes
a field with a non-empty name. -/
theorem c5_amended :
    ∀ (s : String) (f : Format),
      hasPair '\x7b' '\x7d' s.data = false →
      hasPair '\x7b' ':' s.data = false →
      fmt s = .ok f → FmtOk f := by
  intro s f h2 h3 hf
  unfold fmt at hf
  cases hpf : parseFormat (s.data.length + 1) [] false s.data with
  | error e => rw [hpf] at hf; cases hf
  | ok fr =>
    rw [hpf] at hf
    simp only [Except.ok.injEq] at hf
    subst hf
    exact (parse_noconsec (s.data.length + 1)).1 [] false s.data fr.1 fr.2
      (by rw [hpf]) ⟨h2, h3⟩ FmtOk.nil (by intro _ f0 h0; cases h0)

/-- Witness for C5 as amended, on a template with an escape pair and a
subformat. -/
theorem c5_witness :
    (hasPair '\x7b' '\x7d' (("a~\x7bb\x7bv:,:\x7b*\x7d\x7dc") : String).data = false ∧
     hasPair '\x7b' ':' (("a~\x7bb\x7bv:,:\x7b*\x7d\x7dc") : String).data = false ∧
     fmt ("a~\x7bb\x7bv:,:\x7b*\x7d\x7dc") =
       .ok [Field.mk ("") ("a\x7bb") ([]),
            Field.mk ("v") (",") ([[Field.mk ("*") ("") ([])]]),
            Field.mk ("") ("c") ([])]) ∧
    FmtOk [Field.mk ("") ("a\x7bb") ([]),
           Field.mk ("v") (",") ([[Field.mk ("*") ("") ([])]]),
           Field.mk ("") ("c") ([])] :=
  ⟨⟨by decide, by decide, rfl⟩,
   c5_amended ("a~\x7bb\x7bv:,:\x7b*\x7d\x7dc") _ (by decide) (by decide) rfl⟩

end CFmt
